import Mathlib

/-!
Shallow embedding of the `NestedDict` and `DebugContainer` data structures of
`src/deepqmc/utils.py`, together with proofs about their behaviour.

Python dictionaries are modelled as insertion-ordered association lists.
Python values that can appear inside a `NestedDict` are modelled by `PyVal`:
`leaf` stands for any non-dict value (the claims only need one such carrier,
an integer), `pdict` for a plain `dict` that is not a `NestedDict`, and
`ndict` for a `NestedDict` instance (whose backing mapping is the entry
list).  Mutation of a Python object in place is modelled by re-storing the
updated value at the same key of the enclosing mapping.
-/

/-- One-step-at-a-time splitter used to model `str.split('.')`:
`segsAux acc cs` cuts `cs` at every `'.'`, with `acc` the (reversed) chars
of the current segment. -/
def segsAux (acc : List Char) : List Char → List String
  | [] => [String.mk acc.reverse]
  | c :: cs => if c = '.' then String.mk acc.reverse :: segsAux [] cs else segsAux (c :: acc) cs

/-- All dot-separated segments of a key.  Iterating `key.split('.', 1)` as
`NestedDict._split_key` does yields exactly these segments, head first. -/
def segsOf (key : String) : List String := segsAux [] key.data

/-- Inverse of `segsOf`: re-join segments with dots. -/
def joinSegs : List String → String
  | [] => ""
  | [s] => s
  | s :: rest => s ++ "." ++ joinSegs rest

/-- A string containing no `'.'` character. -/
def DotFree (s : String) : Prop := ∀ c ∈ s.data, c ≠ '.'

instance (s : String) : Decidable (DotFree s) :=
  inferInstanceAs (Decidable (∀ c ∈ s.data, c ≠ '.'))

/-- Python values stored in a `NestedDict` tree. -/
inductive PyVal where
  | leaf (n : Int)
  | pdict (entries : List (String × PyVal))
  | ndict (entries : List (String × PyVal))

/-- The backing mapping of a `dict` keyed by strings. -/
abbrev NAssoc := List (String × PyVal)

/-- Errors raised by the modelled operations.  `fuelOut` is an artefact of
the explicit recursion bound of `ndUpdateF` and corresponds to no Python
behaviour. -/
inductive Err where
  | keyError
  | typeError
  | attrError
  | fuelOut
deriving DecidableEq

/-- Lookup in an insertion-ordered association list (`dict.__getitem__` of
the base mapping, returning `none` instead of raising `KeyError`). -/
def assocGet {κ α : Type} [DecidableEq κ] : List (κ × α) → κ → Option α
  | [], _ => none
  | (k', v) :: rest, k => if k' = k then some v else assocGet rest k

/-- Store into an insertion-ordered association list (`dict.__setitem__` of
the base mapping): overwrite in place if the key exists, else append. -/
def assocSet {κ α : Type} [DecidableEq κ] : List (κ × α) → κ → α → List (κ × α)
  | [], k, v => [(k, v)]
  | (k', v') :: rest, k, v =>
    if k' = k then (k, v) :: rest else (k', v') :: assocSet rest k v

/-- Remove from an association list (`dict.__delitem__`); `none` models
`KeyError` when the key is absent. -/
def assocDel {κ α : Type} [DecidableEq κ] : List (κ × α) → κ → Option (List (κ × α))
  | [], _ => none
  | (k', v') :: rest, k =>
    if k' = k then some rest else (assocDel rest k).map (fun r => (k', v') :: r)

/-- Lines 224-228 of `NestedDict.__getitem__`: look up a single (dot-free)
segment in the base mapping, auto-vivifying a fresh empty `NestedDict` when
it is absent.  Returns the value together with the updated backing list. -/
def vivAt (assoc : NAssoc) (h : String) : PyVal × NAssoc :=
  match assocGet assoc h with
  | some v => (v, assoc)
  | none => (.ndict [], assocSet assoc h (.ndict []))

/-- `NestedDict.__getitem__` on the segment list `h :: rs`.  The head is
resolved with auto-vivification; a remaining path is delegated to the value:
recursively for a `NestedDict`, as one literal key lookup for a plain
`dict`, and a `TypeError` for a non-subscriptable leaf. -/
def ndGetS (assoc : NAssoc) (h : String) : List String → Except Err (PyVal × NAssoc)
  | [] => .ok (vivAt assoc h)
  | r :: rs =>
    match vivAt assoc h with
    | (.ndict a, a1) =>
      match ndGetS a r rs with
      | .ok (w, a') => .ok (w, assocSet a1 h (.ndict a'))
      | .error e => .error e
    | (.pdict a, a1) =>
      match assocGet a (joinSegs (r :: rs)) with
      | some w => .ok (w, a1)
      | none => .error .keyError
    | (.leaf _, _) => .error .typeError

/-- `NestedDict.__getitem__` on a raw key string. -/
def ndGet (assoc : NAssoc) (key : String) : Except Err (PyVal × NAssoc) :=
  match segsOf key with
  | [] => .error .keyError
  | h :: rs => ndGetS assoc h rs

/-- `NestedDict.__setitem__` on the segment list `h :: rs`: with no rest the
value is stored directly; otherwise `self[head]` is resolved (vivifying) and
the assignment is delegated to it. -/
def ndSetS (assoc : NAssoc) (h : String) (v : PyVal) : List String → Except Err NAssoc
  | [] => .ok (assocSet assoc h v)
  | r :: rs =>
    match vivAt assoc h with
    | (.ndict a, a1) =>
      match ndSetS a r v rs with
      | .ok a' => .ok (assocSet a1 h (.ndict a'))
      | .error e => .error e
    | (.pdict a, a1) => .ok (assocSet a1 h (.pdict (assocSet a (joinSegs (r :: rs)) v)))
    | (.leaf _, _) => .error .typeError

/-- `NestedDict.__setitem__` on a raw key string. -/
def ndSet (assoc : NAssoc) (key : String) (v : PyVal) : Except Err NAssoc :=
  match segsOf key with
  | [] => .error .keyError
  | h :: rs => ndSetS assoc h v rs

/-- `NestedDict.__delitem__` on the segment list `h :: rs`: the head of a
dotted path is resolved with the base (non-vivifying) accessor, so a missing
head raises `KeyError`. -/
def ndDelS (assoc : NAssoc) (h : String) : List String → Except Err NAssoc
  | [] =>
    match assocDel assoc h with
    | some a' => .ok a'
    | none => .error .keyError
  | r :: rs =>
    match assocGet assoc h with
    | none => .error .keyError
    | some (.ndict a) =>
      match ndDelS a r rs with
      | .ok a' => .ok (assocSet assoc h (.ndict a'))
      | .error e => .error e
    | some (.pdict a) =>
      match assocDel a (joinSegs (r :: rs)) with
      | some a' => .ok (assocSet assoc h (.pdict a'))
      | none => .error .keyError
    | some (.leaf _) => .error .typeError

/-- `NestedDict.__delitem__` on a raw key string. -/
def ndDel (assoc : NAssoc) (key : String) : Except Err NAssoc :=
  match segsOf key with
  | [] => .error .keyError
  | h :: rs => ndDelS assoc h rs

/-- Plain `dict.update` with a dict argument: literal per-key overwrite. -/
def pdictUpdate (a : NAssoc) (other : NAssoc) : NAssoc :=
  other.foldl (fun acc kv => assocSet acc kv.1 kv.2) a

/-- `NestedDict.__init__(dct)`: a plain or nested dict argument is copied by
updating a fresh empty `NestedDict` with it; a truthy non-dict argument
raises `AttributeError` (`.items()` missing), a falsy one is skipped. -/
def mkND (recur : NAssoc → List (String × PyVal) → Except Err NAssoc) :
    PyVal → Except Err NAssoc
  | .pdict b => recur [] b
  | .ndict b => recur [] b
  | .leaf n => if n = 0 then .ok [] else .error .attrError

/-- Line 255 of `NestedDict.update`: `super().__getitem__(key).update(val)`.
The base (literal-key, non-vivifying) lookup of `key`; its value is updated
in place: recursively for a `NestedDict`, shallowly for a plain `dict`, and
an `AttributeError` for a leaf. -/
def updFinish (recur : NAssoc → List (String × PyVal) → Except Err NAssoc)
    (assoc : NAssoc) (key : String) (c : NAssoc) : Except Err NAssoc :=
  match assocGet assoc key with
  | none => .error .keyError
  | some (.ndict a) =>
    match recur a c with
    | .ok a' => .ok (assocSet assoc key (.ndict a'))
    | .error e => .error e
  | some (.pdict a) => .ok (assocSet assoc key (.pdict (pdictUpdate a c)))
  | some (.leaf _) => .error .attrError

/-- The body of `NestedDict.update` for one pair `(key, val)` whose `val` is
dict-like with entry list `c`.  Each `self[key]` occurrence is a separate
(vivifying, dot-splitting) `__getitem__` call; `self[key] = ...` is the
dot-splitting `__setitem__`; the final step is `updFinish`. -/
def updEntry (recur : NAssoc → List (String × PyVal) → Except Err NAssoc)
    (assoc : NAssoc) (key : String) (c : NAssoc) : Except Err NAssoc :=
  match ndGet assoc key with
  | .error e => .error e
  | .ok (v1, a1) =>
    match v1 with
    | .ndict _ => updFinish recur a1 key c
    | _ =>
      match ndGet a1 key with
      | .error e => .error e
      | .ok (v2, a2) =>
        match v2 with
        | .leaf _ =>
          match ndSet a2 key (.ndict []) with
          | .error e => .error e
          | .ok a4 => updFinish recur a4 key c
        | _ =>
          match ndGet a2 key with
          | .error e => .error e
          | .ok (v3, a3) =>
            match mkND recur v3 with
            | .error e => .error e
            | .ok inner =>
              match ndSet a3 key (.ndict inner) with
              | .error e => .error e
              | .ok a4 => updFinish recur a4 key c

/-- `NestedDict.update(other)` over the ordered pair list of `other`, with
an explicit recursion bound `fuel` (the Python recursion is bounded by the
nesting depth of the values involved; `fuel` only needs to exceed it). -/
def ndUpdateF : Nat → NAssoc → List (String × PyVal) → Except Err NAssoc
  | 0, _, _ => .error .fuelOut
  | _ + 1, assoc, [] => .ok assoc
  | fuel + 1, assoc, (key, val) :: rest =>
    match val with
    | .pdict c =>
      match updEntry (ndUpdateF fuel) assoc key c with
      | .ok a' => ndUpdateF fuel a' rest
      | .error e => .error e
    | .ndict c =>
      match updEntry (ndUpdateF fuel) assoc key c with
      | .ok a' => ndUpdateF fuel a' rest
      | .error e => .error e
    | .leaf n => ndUpdateF fuel (assocSet assoc key (.leaf n)) rest

/-- The backing list produced by setting a value at a fresh dotted path:
a chain of singleton `NestedDict`s ending in the value. -/
def buildPath : List String → PyVal → NAssoc
  | [], _ => []
  | [s], v => [(s, v)]
  | s :: t :: ts, v => [(s, .ndict (buildPath (t :: ts) v))]

/-- Keys of the `DebugContainer` backing mapping: `_getkey` returns the raw
integer when the scope stack is empty, a dotted string otherwise. -/
inductive DKey where
  | int (n : Int)
  | str (s : String)
deriving DecidableEq

/-- An external tensor value.  `onCpu`/`hasGraph` model device residency and
attachment to a live autograd graph; `isOriginal` records whether the value
is the very object the caller passed in (`Tensor.detach` always returns a
fresh tensor object, `Tensor.cpu` returns a fresh object unless the tensor
already lives on the CPU). -/
structure Tensor where
  onCpu : Bool
  hasGraph : Bool
  isOriginal : Bool
deriving DecidableEq

/-- `torch.Tensor.detach()`: a new tensor detached from the graph. -/
def tdetach (t : Tensor) : Tensor := { t with hasGraph := false, isOriginal := false }

/-- `torch.Tensor.cpu()`: the same object if already host-resident, else a
new host-resident copy. -/
def tcpu (t : Tensor) : Tensor :=
  if t.onCpu then t else { t with onCpu := true, isOriginal := false }

/-- Values stored in a `DebugContainer`: tensors, other plain values, and
nested (auto-vivified) containers carrying their class (`isNull` marks a
`_NullDebug`), backing data and scope stack. -/
inductive DVal where
  | tensor (t : Tensor)
  | plain (n : Int)
  | cont (isNull : Bool) (data : List (DKey × DVal)) (levels : List String)

/-- State of a `DebugContainer` (or `_NullDebug` when `isNull` is true):
the `UserDict` backing mapping `data` and the scope stack `_levels`. -/
structure DC where
  isNull : Bool
  data : List (DKey × DVal)
  levels : List String

/-- `DebugContainer._getkey`: an integer key is kept as-is only when the
scope stack is empty; otherwise the stringified key is dot-joined onto the
scope labels. -/
def dcGetKey (dc : DC) (key : DKey) : DKey :=
  match key with
  | .int n =>
    if dc.levels.isEmpty then .int n
    else .str (String.intercalate "." (dc.levels ++ [toString n]))
  | .str s => .str (String.intercalate "." (dc.levels ++ [s]))

/-- The conversion applied by `DebugContainer.__setitem__` before storing:
tensors are replaced by `val.detach().cpu()`, everything else is kept. -/
def coerceVal : DVal → DVal
  | .tensor t => .tensor (tcpu (tdetach t))
  | v => v

/-- `__setitem__`: a no-op for `_NullDebug` (its override is `pass`);
otherwise the coerced value is stored under the resolved key. -/
def dcSetItem (dc : DC) (key : DKey) (v : DVal) : DC :=
  if dc.isNull then dc
  else { dc with data := assocSet dc.data (dcGetKey dc key) (coerceVal v) }

/-- `__getitem__`: line 111 reassigns `key = self._getkey(key)`, the lookup
uses the resolved key, and on `KeyError` a fresh empty container of the
same class is stored through `self.__setitem__(key, val)` with that
already-resolved key (line 116) — and `__setitem__` applies `_getkey`
again (line 122), so with a non-empty scope stack the store lands under a
doubly-prefixed key.  (For `_NullDebug` the store is discarded.)  Returns
the value and the updated state. -/
def dcGetItem (dc : DC) (key : DKey) : DVal × DC :=
  match assocGet dc.data (dcGetKey dc key) with
  | some v => (v, dc)
  | none =>
    (DVal.cont dc.isNull [] [], dcSetItem dc (dcGetKey dc key) (DVal.cont dc.isNull [] []))

/-- `DebugContainer.result`: store the value via the base `UserDict`
setter under the dot-join of the scope stack alone, and return it.  Note
this bypasses both the tensor coercion and the `_NullDebug` override. -/
def dcResult (dc : DC) (v : DVal) : DVal × DC :=
  (v, { dc with data := assocSet dc.data (.str (String.intercalate "." dc.levels)) v })

/-- A sequence of `__setitem__` calls, first to last. -/
def dcSets (dc : DC) (ops : List (DKey × DVal)) : DC :=
  ops.foldl (fun d kv => dcSetItem d kv.1 kv.2) dc

/-- The module-level `NULL_DEBUG = _NullDebug()` sentinel. -/
def NULL_DEBUG : DC := ⟨true, [], []⟩

/-- Exceptions of the scope machinery: the `assert` in `cd`'s `finally`
block, and the `IndexError` of popping an empty list. -/
inductive PyErr where
  | assertError
  | indexError
deriving DecidableEq

/-- Entry into `cd(label)`: `self._levels.append(label)`. -/
def pushLevel (dc : DC) (label : String) : DC :=
  { dc with levels := dc.levels ++ [label] }

/-- The `finally` block of `cd`: `assert label == self._levels.pop()`.
The pop happens first (an empty stack raises `IndexError`), then the
assertion compares the popped element with the label. -/
def popAssert (dc : DC) (label : String) : DC × Option PyErr :=
  match dc.levels.getLast? with
  | none => (dc, some .indexError)
  | some l =>
    ({ dc with levels := dc.levels.dropLast }, if l = label then none else some .assertError)

/-- The whole `with debug.cd(label): body` construct.  `body` maps the state
after the push to its exit state plus an optional in-flight exception; the
`finally` block always runs, and an exception it raises supersedes the
body's one. -/
def cdRun (dc : DC) (label : String) (body : DC → DC × Option PyErr) : DC × Option PyErr :=
  let r := body (pushLevel dc label)
  let p := popAssert r.1 label
  (p.1, p.2.orElse (fun _ => r.2))

/-- A concrete block body used to instantiate `cdRun`: it leaves the state
unchanged and raises. -/
def cBody : DC → DC × Option PyErr := fun d => (d, some PyErr.indexError)


/-! ### Association-list lemmas -/

theorem assocGet_assocSet {κ α : Type} [DecidableEq κ] (l : List (κ × α)) (k k2 : κ) (v : α) :
    assocGet (assocSet l k v) k2 = if k2 = k then some v else assocGet l k2 := by
  induction l with
  | nil =>
    simp only [assocSet, assocGet]
    rcases eq_or_ne k k2 with h | h
    · subst h; simp
    · rw [if_neg h, if_neg (Ne.symm h)]
  | cons p rest ih =>
    obtain ⟨k', v'⟩ := p
    rcases eq_or_ne k' k with hk | hk
    · subst hk
      simp only [assocSet, if_pos rfl, assocGet]
      rcases eq_or_ne k' k2 with h2 | h2
      · subst h2; simp
      · rw [if_neg h2, if_neg (Ne.symm h2), if_neg h2]
    · simp only [assocSet, if_neg hk, assocGet, ih]
      rcases eq_or_ne k' k2 with h2 | h2
      · subst h2; simp [hk]
      · rw [if_neg h2, if_neg h2]

theorem assocGet_assocSet_self {κ α : Type} [DecidableEq κ] (l : List (κ × α)) (k : κ) (v : α) :
    assocGet (assocSet l k v) k = some v := by
  simp [assocGet_assocSet]

theorem assocGet_assocSet_ne {κ α : Type} [DecidableEq κ] (l : List (κ × α)) (k k2 : κ) (v : α)
    (h : k2 ≠ k) : assocGet (assocSet l k v) k2 = assocGet l k2 := by
  simp [assocGet_assocSet, h]

theorem assocSet_assocSet {κ α : Type} [DecidableEq κ] (l : List (κ × α)) (k : κ) (v w : α) :
    assocSet (assocSet l k v) k w = assocSet l k w := by
  induction l with
  | nil => simp [assocSet]
  | cons p rest ih =>
    obtain ⟨k', v'⟩ := p
    by_cases hk : k' = k <;> simp [assocSet, hk, ih]

theorem assocSet_of_get {κ α : Type} [DecidableEq κ] (l : List (κ × α)) (k : κ) (v : α)
    (h : assocGet l k = some v) : assocSet l k v = l := by
  induction l with
  | nil => simp [assocGet] at h
  | cons p rest ih =>
    obtain ⟨k', v'⟩ := p
    by_cases hk : k' = k
    · subst hk
      simp [assocGet] at h
      simp [assocSet, h]
    · simp [assocGet, hk] at h
      simp [assocSet, hk, ih h]

/-! ### Segmentation lemmas -/

theorem stringMk_data (s : String) : String.mk s.data = s := rfl

theorem segsAux_no_dot (cs : List Char) : ∀ acc : List Char, (∀ c ∈ cs, c ≠ '.') →
    segsAux acc cs = [String.mk (acc.reverse ++ cs)] := by
  induction cs with
  | nil => intro acc _; simp [segsAux]
  | cons c cs ih =>
    intro acc h
    have hc : c ≠ '.' := h c (by simp)
    have := ih (c :: acc) (fun x hx => h x (by simp [hx]))
    simp [segsAux, hc, this]

theorem segsOf_dotfree (s : String) (h : DotFree s) : segsOf s = [s] := by
  have := segsAux_no_dot s.data [] h
  simpa [segsOf, stringMk_data] using this

theorem segsAux_append_dot (xs : List Char) : ∀ (acc cs : List Char), (∀ c ∈ xs, c ≠ '.') →
    segsAux acc (xs ++ '.' :: cs) = String.mk (acc.reverse ++ xs) :: segsAux [] cs := by
  induction xs with
  | nil => intro acc cs _; simp [segsAux]
  | cons x xs ih =>
    intro acc cs h
    have hx : x ≠ '.' := h x (by simp)
    have := ih (x :: acc) cs (fun c hc => h c (by simp [hc]))
    simp [segsAux, hx, this]

theorem mk_append (xs ys : List Char) : String.mk xs ++ String.mk ys = String.mk (xs ++ ys) := rfl

theorem joinSegs_cons_of_ne_nil (s : String) (l : List String) (h : l ≠ []) :
    joinSegs (s :: l) = s ++ "." ++ joinSegs l := by
  cases l with
  | nil => exact absurd rfl h
  | cons t ts => rfl

theorem data_joinSegs_cons (s t : String) (ts : List String) :
    (joinSegs (s :: t :: ts)).data = s.data ++ '.' :: (joinSegs (t :: ts)).data := by
  show (s ++ "." ++ joinSegs (t :: ts)).data = _
  simp [String.data_append]

theorem segsOf_joinSegs (l : List String) (hne : l ≠ []) (hdf : ∀ s ∈ l, DotFree s) :
    segsOf (joinSegs l) = l := by
  induction l with
  | nil => exact absurd rfl hne
  | cons s l ih =>
    cases l with
    | nil => exact segsOf_dotfree s (hdf s (by simp))
    | cons t ts =>
      have hs : DotFree s := hdf s (by simp)
      have hrec := ih (by simp) (fun x hx => hdf x (by simp [hx]))
      show segsAux [] (joinSegs (s :: t :: ts)).data = s :: t :: ts
      rw [data_joinSegs_cons]
      rw [segsAux_append_dot s.data [] _ hs]
      simp [stringMk_data]
      exact hrec

theorem segsAux_ne_nil (cs : List Char) : ∀ acc, segsAux acc cs ≠ [] := by
  induction cs with
  | nil => intro acc; simp [segsAux]
  | cons c cs ih =>
    intro acc
    by_cases hc : c = '.' <;> simp [segsAux, hc, ih]

theorem joinSegs_segsAux (cs : List Char) : ∀ acc,
    joinSegs (segsAux acc cs) = String.mk (acc.reverse ++ cs) := by
  induction cs with
  | nil => intro acc; simp [segsAux, joinSegs]
  | cons c cs ih =>
    intro acc
    by_cases hc : c = '.'
    · subst hc
      rw [show segsAux acc ('.' :: cs) = String.mk acc.reverse :: segsAux [] cs by
        simp [segsAux]]
      rw [joinSegs_cons_of_ne_nil _ _ (segsAux_ne_nil cs [])]
      rw [ih []]
      show String.mk acc.reverse ++ String.mk ['.'] ++ String.mk cs = _
      rw [mk_append, mk_append]
      simp
    · have := ih (c :: acc)
      simp [segsAux, hc, this]

theorem joinSegs_segsOf (key : String) : joinSegs (segsOf key) = key := by
  have := joinSegs_segsAux key.data []
  simpa [segsOf, stringMk_data] using this

theorem segsAux_mem_dotFree (cs : List Char) : ∀ acc s, (∀ c ∈ acc, c ≠ '.') →
    s ∈ segsAux acc cs → DotFree s := by
  induction cs with
  | nil =>
    intro acc s hacc hs
    simp [segsAux] at hs
    subst hs
    intro c hc
    exact hacc c (by simpa using hc)
  | cons c cs ih =>
    intro acc s hacc hs
    by_cases hc : c = '.'
    · subst hc
      simp [segsAux] at hs
      rcases hs with hs | hs
      · subst hs
        intro x hx
        exact hacc x (by simpa using hx)
      · exact ih [] s (by simp) hs
    · simp [segsAux, hc] at hs
      exact ih (c :: acc) s (by
        intro x hx
        rcases List.mem_cons.1 hx with h | h
        · subst h; exact hc
        · exact hacc x h) hs

theorem segsOf_mem_dotFree (key : String) (s : String) (h : s ∈ segsOf key) : DotFree s :=
  segsAux_mem_dotFree key.data [] s (by simp) h

/-! ### NestedDict operation lemmas -/

theorem vivAt_of_get (assoc : NAssoc) (k : String) (v : PyVal)
    (h : assocGet assoc k = some v) : vivAt assoc k = (v, assoc) := by
  simp [vivAt, h]

theorem vivAt_of_none (assoc : NAssoc) (k : String)
    (h : assocGet assoc k = none) :
    vivAt assoc k = (.ndict [], assocSet assoc k (.ndict [])) := by
  simp [vivAt, h]

theorem vivAt_frame (assoc : NAssoc) (k s : String) (h : s ≠ k) :
    assocGet (vivAt assoc k).2 s = assocGet assoc s := by
  unfold vivAt
  cases hg : assocGet assoc k <;> simp [hg, assocGet_assocSet_ne _ _ _ _ h]

theorem ndGet_dotfree (assoc : NAssoc) (key : String) (h : DotFree key) :
    ndGet assoc key = .ok (vivAt assoc key) := by
  simp [ndGet, segsOf_dotfree key h, ndGetS]

theorem ndSet_dotfree (assoc : NAssoc) (key : String) (v : PyVal) (h : DotFree key) :
    ndSet assoc key v = .ok (assocSet assoc key v) := by
  simp [ndSet, segsOf_dotfree key h, ndSetS]

theorem ndSetS_nil (rs : List String) : ∀ (h : String) (v : PyVal),
    ndSetS [] h v rs = .ok (buildPath (h :: rs) v) := by
  induction rs with
  | nil => intro h v; simp [ndSetS, buildPath, assocSet]
  | cons r rs ih =>
    intro h v
    have hv : vivAt [] h = (.ndict [], [(h, .ndict [])]) := by
      simp [vivAt, assocGet, assocSet]
    simp [ndSetS, hv, ih, buildPath, assocSet]

theorem ndGetS_buildPath (rs : List String) : ∀ (h : String) (v : PyVal),
    ndGetS (buildPath (h :: rs) v) h rs = .ok (v, buildPath (h :: rs) v) := by
  induction rs with
  | nil => intro h v; simp [ndGetS, buildPath, vivAt, assocGet]
  | cons r rs ih =>
    intro h v
    have hv : vivAt [(h, PyVal.ndict (buildPath (r :: rs) v))] h =
        (.ndict (buildPath (r :: rs) v), [(h, .ndict (buildPath (r :: rs) v))]) := by
      simp [vivAt, assocGet]
    simp [buildPath, ndGetS, hv, ih, assocSet]

theorem ndGetS_buildPath_mid (ps : List String) :
    ∀ (h : String) (rs : List String) (v : PyVal) (q : String) (qs : List String),
      rs = ps ++ q :: qs →
      ndGetS (buildPath (h :: rs) v) h ps =
        .ok (.ndict (buildPath (q :: qs) v), buildPath (h :: rs) v) := by
  induction ps with
  | nil =>
    intro h rs v q qs hrs
    subst hrs
    simp [buildPath, ndGetS, vivAt, assocGet]
  | cons p ps ih =>
    intro h rs v q qs hrs
    subst hrs
    have := ih p (ps ++ q :: qs) v q qs rfl
    simp only [List.cons_append] at this ⊢
    have hv : vivAt [(h, PyVal.ndict (buildPath (p :: (ps ++ q :: qs)) v))] h =
        (.ndict (buildPath (p :: (ps ++ q :: qs)) v),
          [(h, .ndict (buildPath (p :: (ps ++ q :: qs)) v))]) := by
      simp [vivAt, assocGet]
    simp [buildPath, ndGetS, hv, this, assocSet]

theorem ndGetS_nil_chain (rs : List String) : ∀ r : String,
    ndGetS [] r rs = .ok (.ndict [], buildPath (r :: rs) (.ndict [])) := by
  induction rs with
  | nil => intro r; simp [ndGetS, vivAt, assocGet, buildPath, assocSet]
  | cons q qs ih =>
    intro r
    have hv : vivAt ([] : NAssoc) r = (.ndict [], [(r, .ndict [])]) := by
      simp [vivAt, assocGet, assocSet]
    simp [ndGetS, hv, ih, buildPath, assocSet]

/-- Along the dotted path `h :: rs`, every strict-prefix value that exists
is a `NestedDict` (so traversal never hits a plain dict or a leaf). -/
def prefixOkS (assoc : NAssoc) (h : String) : List String → Bool
  | [] => true
  | r :: rs =>
    match assocGet assoc h with
    | none => true
    | some (.ndict a) => prefixOkS a r rs
    | some _ => false

/-- The nested lookup of the dotted path `h :: rs` misses: either some
prefix is absent, or the full path's final segment is unset. -/
def nestedAbsentS (assoc : NAssoc) (h : String) : List String → Bool
  | [] => (assocGet assoc h).isNone
  | r :: rs =>
    match assocGet assoc h with
    | none => true
    | some (.ndict a) => nestedAbsentS a r rs
    | some _ => true

theorem prefixOkS_nil_assoc (r : String) (rs : List String) :
    prefixOkS [] r rs = true := by
  cases rs <;> simp [prefixOkS, assocGet]

theorem nestedAbsentS_nil_assoc (r : String) (rs : List String) :
    nestedAbsentS [] r rs = true := by
  cases rs <;> simp [nestedAbsentS, assocGet]

/-- Auto-vivification along a path whose existing prefixes are all
`NestedDict`s and whose nested lookup misses: the get succeeds with a fresh
empty `NestedDict`, the result is stored (a second get returns it with no
further change), the head is now present as a `NestedDict`, sibling keys
are untouched, and every proper prefix of the path now resolves to a
`NestedDict` without further mutation. -/
theorem vivOk (rs : List String) : ∀ (h : String) (assoc : NAssoc),
    prefixOkS assoc h rs = true → nestedAbsentS assoc h rs = true →
    ∃ a', ndGetS assoc h rs = .ok (.ndict [], a')
      ∧ ndGetS a' h rs = .ok (.ndict [], a')
      ∧ (∃ w, assocGet a' h = some (.ndict w))
      ∧ (∀ s, s ≠ h → assocGet a' s = assocGet assoc s)
      ∧ (∀ ps q qs, rs = ps ++ q :: qs → ∃ w', ndGetS a' h ps = .ok (.ndict w', a')) := by
  induction rs with
  | nil =>
    intro h assoc _ hna
    have hg : assocGet assoc h = none := by
      simpa [nestedAbsentS, Option.isNone_iff_eq_none] using hna
    refine ⟨assocSet assoc h (.ndict []), ?_, ?_, ⟨[], assocGet_assocSet_self _ _ _⟩, ?_, ?_⟩
    · simp [ndGetS, vivAt_of_none _ _ hg]
    · simp [ndGetS, vivAt_of_get _ _ _ (assocGet_assocSet_self _ _ _)]
    · intro s hs; exact assocGet_assocSet_ne _ _ _ _ hs
    · intro ps q qs habs; exact absurd habs (by cases ps <;> simp)
  | cons r rs ih =>
    intro h assoc hpo hna
    cases hg : assocGet assoc h with
    | none =>
      obtain ⟨a1', h1, h2, _, _, h5⟩ :=
        ih r [] (prefixOkS_nil_assoc r rs) (nestedAbsentS_nil_assoc r rs)
      refine ⟨assocSet assoc h (.ndict a1'), ?_, ?_,
        ⟨a1', assocGet_assocSet_self _ _ _⟩, ?_, ?_⟩
      · simp [ndGetS, vivAt_of_none _ _ hg, h1, assocSet_assocSet]
      · simp [ndGetS, vivAt_of_get _ _ _ (assocGet_assocSet_self _ _ _), h2, assocSet_assocSet]
      · intro s hs; exact assocGet_assocSet_ne _ _ _ _ hs
      · intro ps q qs hrs
        cases ps with
        | nil =>
          exact ⟨a1', by simp [ndGetS, vivAt_of_get _ _ _ (assocGet_assocSet_self _ _ _)]⟩
        | cons p ps' =>
          simp only [List.cons_append, List.cons.injEq] at hrs
          obtain ⟨hp, hrs'⟩ := hrs
          obtain ⟨w', hw⟩ := h5 ps' q qs hrs'
          refine ⟨w', ?_⟩
          simp [ndGetS, vivAt_of_get _ _ _ (assocGet_assocSet_self _ _ _), ← hp, hw,
            assocSet_assocSet]
    | some v =>
      cases v with
      | ndict a =>
        have hpo' : prefixOkS a r rs = true := by simpa [prefixOkS, hg] using hpo
        have hna' : nestedAbsentS a r rs = true := by simpa [nestedAbsentS, hg] using hna
        obtain ⟨a2', h1, h2, _, _, h5⟩ := ih r a hpo' hna'
        refine ⟨assocSet assoc h (.ndict a2'), ?_, ?_,
          ⟨a2', assocGet_assocSet_self _ _ _⟩, ?_, ?_⟩
        · simp [ndGetS, vivAt_of_get _ _ _ hg, h1]
        · simp [ndGetS, vivAt_of_get _ _ _ (assocGet_assocSet_self _ _ _), h2, assocSet_assocSet]
        · intro s hs; exact assocGet_assocSet_ne _ _ _ _ hs
        · intro ps q qs hrs
          cases ps with
          | nil =>
            exact ⟨a2', by simp [ndGetS, vivAt_of_get _ _ _ (assocGet_assocSet_self _ _ _)]⟩
          | cons p ps' =>
            simp only [List.cons_append, List.cons.injEq] at hrs
            obtain ⟨hp, hrs'⟩ := hrs
            obtain ⟨w', hw⟩ := h5 ps' q qs hrs'
            refine ⟨w', ?_⟩
            simp [ndGetS, vivAt_of_get _ _ _ (assocGet_assocSet_self _ _ _), ← hp, hw,
              assocSet_assocSet]
      | leaf n => simp [prefixOkS, hg] at hpo
      | pdict a => simp [prefixOkS, hg] at hpo

/-! ### Update frame lemmas -/

theorem updFinish_frame (f : NAssoc → List (String × PyVal) → Except Err NAssoc)
    (assoc : NAssoc) (key : String) (c : NAssoc) (aOut : NAssoc) (s : String)
    (hs : s ≠ key) (h : updFinish f assoc key c = .ok aOut) :
    assocGet aOut s = assocGet assoc s := by
  unfold updFinish at h
  split at h
  · simp at h
  · split at h
    · simp only [Except.ok.injEq] at h
      rw [← h, assocGet_assocSet_ne _ _ _ _ hs]
    · simp at h
  · simp only [Except.ok.injEq] at h
    rw [← h, assocGet_assocSet_ne _ _ _ _ hs]
  · simp at h

theorem ndGet_dotfree_frame (X : NAssoc) (key : String) (v : PyVal) (a : NAssoc) (s : String)
    (hdf : DotFree key) (hs : s ≠ key) (h : ndGet X key = .ok (v, a)) :
    assocGet a s = assocGet X s := by
  rw [ndGet_dotfree X key hdf] at h
  simp only [Except.ok.injEq] at h
  have hf := vivAt_frame X key s hs
  rw [h] at hf
  exact hf

theorem ndSet_dotfree_frame (X : NAssoc) (key : String) (w : PyVal) (a4 : NAssoc) (s : String)
    (hdf : DotFree key) (hs : s ≠ key) (h : ndSet X key w = .ok a4) :
    assocGet a4 s = assocGet X s := by
  rw [ndSet_dotfree X key w hdf] at h
  simp only [Except.ok.injEq] at h
  rw [← h, assocGet_assocSet_ne _ _ _ _ hs]

theorem updEntry_frame (f : NAssoc → List (String × PyVal) → Except Err NAssoc)
    (assoc : NAssoc) (key : String) (c : NAssoc) (aOut : NAssoc) (s : String)
    (hdf : DotFree key) (hs : s ≠ key)
    (h : updEntry f assoc key c = .ok aOut) : assocGet aOut s = assocGet assoc s := by
  unfold updEntry at h
  split at h
  · simp at h
  · rename_i v1 a1 heq1
    have fr1 : assocGet a1 s = assocGet assoc s :=
      ndGet_dotfree_frame assoc key v1 a1 s hdf hs heq1
    split at h
    · exact (updFinish_frame f a1 key c aOut s hs h).trans fr1
    · split at h
      · simp at h
      · rename_i v2 a2 heq2
        have fr2 : assocGet a2 s = assocGet a1 s :=
          ndGet_dotfree_frame a1 key v2 a2 s hdf hs heq2
        split at h
        · split at h
          · simp at h
          · rename_i a4 heq4
            have fr4 : assocGet a4 s = assocGet a2 s :=
              ndSet_dotfree_frame a2 key (.ndict []) a4 s hdf hs heq4
            exact (((updFinish_frame f a4 key c aOut s hs h).trans fr4).trans fr2).trans fr1
        · split at h
          · simp at h
          · rename_i v3 a3 heq3
            have fr3 : assocGet a3 s = assocGet a2 s :=
              ndGet_dotfree_frame a2 key v3 a3 s hdf hs heq3
            split at h
            · simp at h
            · rename_i inner heqmk
              split at h
              · simp at h
              · rename_i a4 heq5
                have fr4 : assocGet a4 s = assocGet a3 s :=
                  ndSet_dotfree_frame a3 key (.ndict inner) a4 s hdf hs heq5
                exact ((((updFinish_frame f a4 key c aOut s hs h).trans fr4).trans
                  fr3).trans fr2).trans fr1

/-- `NestedDict.update` whose argument has only dot-free keys leaves every
other key of the base mapping untouched. -/
theorem updFrame (fuel : Nat) : ∀ (other : List (String × PyVal)) (assoc r : NAssoc) (s : String),
    (∀ p ∈ other, DotFree p.1) → (∀ p ∈ other, p.1 ≠ s) →
    ndUpdateF fuel assoc other = .ok r → assocGet r s = assocGet assoc s := by
  induction fuel with
  | zero => intro other assoc r s _ _ h; simp [ndUpdateF] at h
  | succ fuel ih =>
    intro other assoc r s hdf hne h
    cases other with
    | nil =>
      simp only [ndUpdateF, Except.ok.injEq] at h
      rw [← h]
    | cons p rest =>
      obtain ⟨key, val⟩ := p
      have hdfk : DotFree key := hdf (key, val) (by simp)
      have hnek : key ≠ s := hne (key, val) (by simp)
      cases val with
      | leaf n =>
        simp only [ndUpdateF] at h
        have h2 := ih rest _ r s (fun p hp => hdf p (by simp [hp]))
          (fun p hp => hne p (by simp [hp])) h
        rw [h2, assocGet_assocSet_ne _ _ _ _ (Ne.symm hnek)]
      | pdict c =>
        simp only [ndUpdateF] at h
        cases he : updEntry (ndUpdateF fuel) assoc key c with
        | error e => rw [he] at h; simp at h
        | ok a' =>
          rw [he] at h
          simp only at h
          have h1 := updEntry_frame _ assoc key c a' s hdfk (Ne.symm hnek) he
          have h2 := ih rest a' r s (fun p hp => hdf p (by simp [hp]))
            (fun p hp => hne p (by simp [hp])) h
          rw [h2, h1]
      | ndict c =>
        simp only [ndUpdateF] at h
        cases he : updEntry (ndUpdateF fuel) assoc key c with
        | error e => rw [he] at h; simp at h
        | ok a' =>
          rw [he] at h
          simp only at h
          have h1 := updEntry_frame _ assoc key c a' s hdfk (Ne.symm hnek) he
          have h2 := ih rest a' r s (fun p hp => hdf p (by simp [hp]))
            (fun p hp => hne p (by simp [hp])) h
          rw [h2, h1]

/-! ### DebugContainer lemmas -/

theorem dcGetKey_data_irrel (dc : DC) (X : List (DKey × DVal)) (key : DKey) :
    dcGetKey { dc with data := X } key = dcGetKey dc key := by
  cases key <;> simp [dcGetKey]

theorem dcGetKey_mk (b : Bool) (X : List (DKey × DVal)) (dc : DC) (key : DKey) :
    dcGetKey ⟨b, X, dc.levels⟩ key = dcGetKey dc key := by
  cases key <;> simp [dcGetKey]

theorem tcpu_tdetach (t : Tensor) : tcpu (tdetach t) = ⟨true, false, false⟩ := by
  rcases t with ⟨c, g, o⟩
  cases c <;> rfl

theorem popAssert_levels (d : DC) (label : String) :
    (popAssert d label).1.levels = d.levels.dropLast := by
  unfold popAssert
  cases hl : d.levels.getLast? with
  | none =>
    have hnil : d.levels = [] := by
      cases hd : d.levels with
      | nil => rfl
      | cons x xs => rw [hd] at hl; simp at hl
    simp [hnil]
  | some l => by_cases hll : l = label <;> simp [hll]

theorem popAssert_ok (d : DC) (label : String) (h : d.levels.getLast? = some label) :
    (popAssert d label).2 = none := by
  simp [popAssert, h]

theorem popAssert_mismatch (d : DC) (label l' : String)
    (h : d.levels.getLast? = some l') (hne : l' ≠ label) :
    (popAssert d label).2 = some PyErr.assertError := by
  simp [popAssert, h, hne]

theorem joinSegs_glue (acc b : String) (bs : List String) :
    joinSegs ((acc ++ "." ++ b) :: bs) = acc ++ "." ++ joinSegs (b :: bs) := by
  cases bs with
  | nil => rfl
  | cons c cs =>
    show (acc ++ "." ++ b) ++ "." ++ joinSegs (c :: cs) =
      acc ++ "." ++ (b ++ "." ++ joinSegs (c :: cs))
    apply String.ext
    simp [String.data_append, List.append_assoc]

theorem intercalate_go_eq (l : List String) : ∀ acc : String,
    String.intercalate.go acc "." l = joinSegs (acc :: l) := by
  induction l with
  | nil => intro acc; rfl
  | cons b bs ih =>
    intro acc
    show String.intercalate.go (acc ++ "." ++ b) "." bs = _
    rw [ih (acc ++ "." ++ b)]
    exact joinSegs_glue acc b bs

theorem intercalate_dot (l : List String) : String.intercalate "." l = joinSegs l := by
  cases l with
  | nil => rfl
  | cons a as => exact intercalate_go_eq as a

theorem joinSegs_app_single_len (levels : List String) : ∀ t : String, levels ≠ [] →
    t.data.length < (joinSegs (levels ++ [t])).data.length := by
  induction levels with
  | nil => intro t ht; exact absurd rfl ht
  | cons l ls ih =>
    intro t _
    rw [List.cons_append, joinSegs_cons_of_ne_nil l (ls ++ [t]) (by simp)]
    rw [String.data_append, String.data_append]
    simp only [List.length_append]
    have hd : (['.'] : List Char).length = 1 := rfl
    cases ls with
    | nil =>
      have hjt : joinSegs ([] ++ [t]) = t := rfl
      rw [hjt]
      omega
    | cons l2 ls2 =>
      have hih := ih t (by simp)
      omega

/-- With a non-empty scope stack, applying `_getkey` to an already-resolved
key prefixes the scope labels a second time, yielding a strictly longer —
hence different — key. -/
theorem dcGetKey_double_ne (dc : DC) (key : DKey) (hlv : dc.levels ≠ []) :
    dcGetKey dc (dcGetKey dc key) ≠ dcGetKey dc key := by
  have hie : dc.levels.isEmpty = false := List.isEmpty_eq_false.mpr hlv
  obtain ⟨t, ht⟩ : ∃ t, dcGetKey dc key = .str t := by
    cases key with
    | int n =>
      refine ⟨String.intercalate "." (dc.levels ++ [toString n]), ?_⟩
      simp [dcGetKey, hie]
    | str s => exact ⟨_, rfl⟩
  rw [ht]
  intro hcontra
  simp only [dcGetKey, DKey.str.injEq] at hcontra
  rw [intercalate_dot] at hcontra
  have hlen := joinSegs_app_single_len dc.levels t hlv
  rw [hcontra] at hlen
  omega

/-! ### Claim theorems -/

/-- Claim C1, counterexample: `result` is a write operation of
`DebugContainer`, yet storing a tensor through it places the original
tensor — still device-resident and attached to the computation graph — into
the backing mapping, not a detached host-resident copy. -/
theorem c1_counterexample :
    (dcResult ⟨false, [], []⟩ (.tensor ⟨false, true, true⟩)).2.data =
      [(.str "", .tensor ⟨false, true, true⟩)]
    ∧ (Tensor.mk false true true).onCpu = false
    ∧ (Tensor.mk false true true).hasGraph = true
    ∧ (Tensor.mk false true true).isOriginal = true :=
  ⟨rfl, rfl, rfl, rfl⟩

/-- Claim C1, amended: values written through `set` (`__setitem__`) are
converted — a tensor is stored as a detached, host-resident, fresh copy
(and the auto-vivifying `get` only ever stores fresh containers) — but
`result` bypasses the conversion and stores its argument unchanged. -/
theorem c1_amended (dc : DC) (key : DKey) (t : Tensor) (h : dc.isNull = false) :
    assocGet (dcSetItem dc key (.tensor t)).data (dcGetKey dc key) =
      some (.tensor ⟨true, false, false⟩)
    ∧ assocGet (dcResult dc (.tensor t)).2.data
        (.str (String.intercalate "." dc.levels)) = some (.tensor t) := by
  constructor
  · simp [dcSetItem, h, coerceVal, tcpu_tdetach, assocGet_assocSet_self]
  · simp [dcResult, assocGet_assocSet_self]

/-- Claim C1 witness: a device-resident, graph-attached original tensor. -/
theorem c1_witness :
    assocGet (dcSetItem ⟨false, [], ["s"]⟩ (.str "k") (.tensor ⟨false, true, true⟩)).data
        (dcGetKey ⟨false, [], ["s"]⟩ (.str "k")) = some (.tensor ⟨true, false, false⟩)
    ∧ assocGet (dcResult ⟨false, [], ["s"]⟩ (.tensor ⟨false, true, true⟩)).2.data
        (.str (String.intercalate "." ["s"])) = some (.tensor ⟨false, true, true⟩) :=
  c1_amended ⟨false, [], ["s"]⟩ (.str "k") ⟨false, true, true⟩ rfl

/-- Claim C2, counterexample: with scope stack `["sc"]`, `get("x")` resolves
the key to `"sc.x"`, but the vivified container is stored through
`__setitem__` with that already-resolved key, and `__setitem__` applies
`_getkey` again: the entry lands under `"sc.sc.x"`, and nothing is stored
under the resolved key `"sc.x"`. -/
theorem c2_counterexample :
    dcGetKey ⟨false, [], ["sc"]⟩ (.str "x") = .str "sc.x"
    ∧ (dcGetItem ⟨false, [], ["sc"]⟩ (.str "x")).2.data =
        [(.str "sc.sc.x", .cont false [] [])]
    ∧ assocGet (dcGetItem ⟨false, [], ["sc"]⟩ (.str "x")).2.data (.str "sc.x") = none :=
  ⟨rfl, rfl, rfl⟩

/-- Claim C2, amended: on a `DebugContainer` whose resolved key is absent,
`get` returns a fresh empty `DebugContainer` and stores it under the
re-resolved key `_getkey(_getkey(key))`.  With an empty scope stack the two
resolutions coincide, so the entry sits under the resolved key and a second
`get` finds it with no further change; with a non-empty scope stack the
re-resolved key differs from the resolved one, the resolved key stays
absent, and a subsequent `get` of the same key misses and vivifies a fresh
container again. -/
theorem c2_amended (dc : DC) (key : DKey) (h1 : dc.isNull = false)
    (h2 : assocGet dc.data (dcGetKey dc key) = none) :
    (dcGetItem dc key).1 = DVal.cont false [] []
    ∧ assocGet (dcGetItem dc key).2.data (dcGetKey dc (dcGetKey dc key)) =
        some (DVal.cont false [] [])
    ∧ (dc.levels = [] →
        dcGetKey dc (dcGetKey dc key) = dcGetKey dc key
        ∧ dcGetItem (dcGetItem dc key).2 key =
            (DVal.cont false [] [], (dcGetItem dc key).2))
    ∧ (dc.levels ≠ [] →
        dcGetKey dc (dcGetKey dc key) ≠ dcGetKey dc key
        ∧ assocGet (dcGetItem dc key).2.data (dcGetKey dc key) = none
        ∧ (dcGetItem (dcGetItem dc key).2 key).1 = DVal.cont false [] []) := by
  have hget : dcGetItem dc key =
      (DVal.cont false [] [],
        { dc with data := (assocSet dc.data (dcGetKey dc (dcGetKey dc key))
            (DVal.cont false [] [])) }) := by
    simp [dcGetItem, h2, h1, dcSetItem, coerceVal]
  refine ⟨?_, ?_, ?_, ?_⟩
  · rw [hget]
  · rw [hget]
    simp [assocGet_assocSet_self]
  · intro hlv
    have he : dcGetKey dc (dcGetKey dc key) = dcGetKey dc key := by
      cases key with
      | int n => simp [dcGetKey, hlv]
      | str s => simp [dcGetKey, hlv, intercalate_dot, joinSegs]
    refine ⟨he, ?_⟩
    rw [hget]
    simp [dcGetItem, dcGetKey_mk, he, assocGet_assocSet_self, h1, dcSetItem]
  · intro hlv
    have hne := dcGetKey_double_ne dc key hlv
    have habs : assocGet (assocSet dc.data (dcGetKey dc (dcGetKey dc key))
        (DVal.cont false [] [])) (dcGetKey dc key) = none := by
      rw [assocGet_assocSet_ne _ _ _ _ (Ne.symm hne)]
      exact h2
    refine ⟨hne, ?_, ?_⟩
    · rw [hget]
      exact habs
    · rw [hget]
      simp [dcGetItem, dcGetKey_mk, habs, h1]

/-- Claim C2 witness: scope stack `["sc"]` with key `"x"` (divergent case)
and the empty scope stack with key `"x"` (agreeing case). -/
theorem c2_witness :
    (dcGetItem ⟨false, [], ["sc"]⟩ (.str "x")).1 = DVal.cont false [] []
    ∧ assocGet (dcGetItem ⟨false, [], ["sc"]⟩ (.str "x")).2.data
        (dcGetKey ⟨false, [], ["sc"]⟩ (dcGetKey ⟨false, [], ["sc"]⟩ (.str "x"))) =
        some (DVal.cont false [] [])
    ∧ dcGetKey ⟨false, [], ["sc"]⟩ (dcGetKey ⟨false, [], ["sc"]⟩ (.str "x")) ≠
        dcGetKey ⟨false, [], ["sc"]⟩ (.str "x")
    ∧ assocGet (dcGetItem ⟨false, [], ["sc"]⟩ (.str "x")).2.data
        (dcGetKey ⟨false, [], ["sc"]⟩ (.str "x")) = none
    ∧ (dcGetItem (dcGetItem ⟨false, [], ["sc"]⟩ (.str "x")).2 (.str "x")).1 =
        DVal.cont false [] []
    ∧ dcGetKey ⟨false, [], ([] : List String)⟩
        (dcGetKey ⟨false, [], ([] : List String)⟩ (.str "x")) =
        dcGetKey ⟨false, [], ([] : List String)⟩ (.str "x")
    ∧ dcGetItem (dcGetItem ⟨false, [], ([] : List String)⟩ (.str "x")).2 (.str "x") =
        (DVal.cont false [] [], (dcGetItem ⟨false, [], ([] : List String)⟩ (.str "x")).2) := by
  have h := c2_amended ⟨false, [], ["sc"]⟩ (.str "x") rfl rfl
  have h4 := h.2.2.2 (by simp)
  have h' := c2_amended ⟨false, [], ([] : List String)⟩ (.str "x") rfl rfl
  have h3 := h'.2.2.1 rfl
  exact ⟨h.1, h.2.1, h4.1, h4.2.1, h4.2.2, h3.1, h3.2⟩

/-- Claim C3, counterexample: `result` on the `NULL_DEBUG` sentinel writes
into the backing mapping (it calls the base `UserDict` setter, bypassing
the `_NullDebug.__setitem__` no-op), so not every write of the interface
leaves the mapping empty. -/
theorem c3_counterexample :
    (dcResult NULL_DEBUG (.plain 7)).2.data = [(.str "", .plain 7)]
    ∧ NULL_DEBUG.isNull = true ∧ NULL_DEBUG.data = [] :=
  ⟨rfl, rfl, rfl⟩

/-- Claim C3, amended: on a `_NullDebug`, any sequence of `set` calls is a
no-op (the state, in particular an empty backing mapping, is unchanged) and
`get` of an absent key auto-vivifies a fresh nested null node without
storing it; `result`, however, does write to the backing mapping. -/
theorem c3_amended (dc : DC) (ops : List (DKey × DVal)) (key : DKey)
    (h1 : dc.isNull = true) (h2 : assocGet dc.data (dcGetKey dc key) = none) :
    dcSets dc ops = dc
    ∧ dcGetItem dc key = (DVal.cont true [] [], dc) := by
  have hset : ∀ (k : DKey) (v : DVal), dcSetItem dc k v = dc := by
    intro k v; simp [dcSetItem, h1]
  constructor
  · induction ops with
    | nil => rfl
    | cons p rest ih =>
      simp only [dcSets, List.foldl_cons, hset] at ih ⊢
      exact ih
  · simp [dcGetItem, h2, h1, hset]

/-- Claim C3 witness: the `NULL_DEBUG` sentinel, a tensor write, an
integer-keyed write, and a lookup of an absent key. -/
theorem c3_witness :
    dcSets NULL_DEBUG [(.str "k", .tensor ⟨false, true, true⟩), (.int 0, .plain 2)] = NULL_DEBUG
    ∧ dcGetItem NULL_DEBUG (.str "q") = (DVal.cont true [] [], NULL_DEBUG) :=
  c3_amended NULL_DEBUG [(.str "k", .tensor ⟨false, true, true⟩), (.int 0, .plain 2)]
    (.str "q") rfl rfl

/-- Claim C4: `cd(label)` pushes the label on entry and its exit pops
exactly one element on every exit path (the exit state's stack is always
the `dropLast` of the body's exit stack, whether or not the body raised);
when the body restores the stack it received, the stack after the block
equals its prior state and the body's outcome (normal or exceptional)
passes through unchanged; and when the popped element differs from the
label the exit raises the assertion failure. -/
theorem c4_cd_scope (dc : DC) (label : String) (body : DC → DC × Option PyErr) :
    (cdRun dc label body).1.levels = (body (pushLevel dc label)).1.levels.dropLast
    ∧ ((body (pushLevel dc label)).1.levels = dc.levels ++ [label] →
        (cdRun dc label body).1.levels = dc.levels
        ∧ (cdRun dc label body).2 = (body (pushLevel dc label)).2)
    ∧ (∀ l', (body (pushLevel dc label)).1.levels.getLast? = some l' → l' ≠ label →
        (cdRun dc label body).2 = some PyErr.assertError) := by
  refine ⟨?_, ?_, ?_⟩
  · show (popAssert (body (pushLevel dc label)).1 label).1.levels = _
    exact popAssert_levels _ _
  · intro hb
    constructor
    · show (popAssert (body (pushLevel dc label)).1 label).1.levels = _
      rw [popAssert_levels _ _, hb, List.dropLast_concat]
    · show ((popAssert (body (pushLevel dc label)).1 label).2.orElse _) = _
      rw [popAssert_ok _ _ (by rw [hb]; exact List.getLast?_concat _)]
      rfl
  · intro l' hl' hne
    show ((popAssert (body (pushLevel dc label)).1 label).2.orElse _) = _
    rw [popAssert_mismatch _ _ _ hl' hne]
    rfl

/-- Claim C4 witness: a body that raises while keeping the stack balanced;
the stack is restored and the body's exception propagates after the pop. -/
theorem c4_witness :
    (cdRun ⟨false, [], []⟩ "outer" cBody).1.levels = []
    ∧ (cdRun ⟨false, [], []⟩ "outer" cBody).2 = some PyErr.indexError := by
  have h := (c4_cd_scope ⟨false, [], []⟩ "outer" cBody).2.1 rfl
  exact ⟨h.1, h.2.trans rfl⟩

/-- Claim C9: `result(v)` stores `v` under exactly the dot-join of the
current scope stack — every other key of the backing mapping is untouched —
leaves the scope stack unchanged, and returns `v` unchanged. -/
theorem c9_result_stores (dc : DC) (v : DVal) :
    (dcResult dc v).1 = v
    ∧ (dcResult dc v).2.levels = dc.levels
    ∧ ∀ k, assocGet (dcResult dc v).2.data k =
        if k = DKey.str (String.intercalate "." dc.levels) then some v
        else assocGet dc.data k := by
  refine ⟨rfl, rfl, ?_⟩
  intro k
  simp [dcResult, assocGet_assocSet]

/-- Claim C5: on a fresh `NestedDict`, setting any compound dotted key (any
head followed by at least one more dot-free segment) stores a chain of
nested `NestedDict`s; getting the same key returns the stored value with no
further change, and getting any proper dotted prefix returns a
`NestedDict` instance. -/
theorem c5_set_get_roundtrip (v : PyVal) (h r : String) (rs : List String)
    (hh : DotFree h) (hr : DotFree r) (hrs : ∀ s ∈ rs, DotFree s) :
    ndSet [] (joinSegs (h :: r :: rs)) v = .ok (buildPath (h :: r :: rs) v)
    ∧ ndGet (buildPath (h :: r :: rs) v) (joinSegs (h :: r :: rs)) =
        .ok (v, buildPath (h :: r :: rs) v)
    ∧ ∀ ps q qs, r :: rs = ps ++ q :: qs →
        ndGet (buildPath (h :: r :: rs) v) (joinSegs (h :: ps)) =
          .ok (.ndict (buildPath (q :: qs) v), buildPath (h :: r :: rs) v) := by
  have hall : ∀ s ∈ h :: r :: rs, DotFree s := by
    intro s hsm
    rcases List.mem_cons.1 hsm with h1 | h1
    · exact h1 ▸ hh
    rcases List.mem_cons.1 h1 with h2 | h2
    · exact h2 ▸ hr
    · exact hrs s h2
  have hsegs : segsOf (joinSegs (h :: r :: rs)) = h :: r :: rs :=
    segsOf_joinSegs _ (by simp) hall
  refine ⟨?_, ?_, ?_⟩
  · simp only [ndSet, hsegs]
    exact ndSetS_nil (r :: rs) h v
  · simp only [ndGet, hsegs]
    exact ndGetS_buildPath (r :: rs) h v
  · intro ps q qs hps
    have hps' : ∀ s ∈ ps, DotFree s := by
      intro s hsm
      exact hall s (List.mem_cons_of_mem _ (by rw [hps]; exact List.mem_append_left _ hsm))
    have hsegs2 : segsOf (joinSegs (h :: ps)) = h :: ps :=
      segsOf_joinSegs _ (by simp) (by
        intro s hsm
        rcases List.mem_cons.1 hsm with h1 | h1
        · exact h1 ▸ hh
        · exact hps' s h1)
    simp only [ndGet, hsegs2]
    exact ndGetS_buildPath_mid ps h (r :: rs) v q qs hps

/-- Claim C5 witness: the key `"a.b.c"` with value `7`. -/
theorem c5_witness :
    ndSet [] (joinSegs ["a", "b", "c"]) (.leaf 7) = .ok (buildPath ["a", "b", "c"] (.leaf 7))
    ∧ ndGet (buildPath ["a", "b", "c"] (.leaf 7)) (joinSegs ["a", "b", "c"]) =
        .ok (.leaf 7, buildPath ["a", "b", "c"] (.leaf 7))
    ∧ ∀ ps q qs, ["b", "c"] = ps ++ q :: qs →
        ndGet (buildPath ["a", "b", "c"] (.leaf 7)) (joinSegs ("a" :: ps)) =
          .ok (.ndict (buildPath (q :: qs) (.leaf 7)), buildPath ["a", "b", "c"] (.leaf 7)) :=
  c5_set_get_roundtrip (.leaf 7) "a" "b" ["c"] (by decide) (by decide) (by decide)

/-- Claim C6, counterexample: a dotted key paired with a dict-like value
makes `update` raise `KeyError` instead of merging — `self[key]` resolves
the split path while `super().__getitem__(key)` looks up the literal key. -/
theorem c6_counterexample :
    ndUpdateF 10 [] [("a.b", PyVal.pdict [("y", PyVal.leaf 2)])] = .error .keyError := rfl

/-- Claim C6, amended: for every dot-free key paired with a dict-like
value in the update argument, the entry at the key is made a `NestedDict` —
kept if already one, converted via `NestedDict(self[key])` if a plain dict,
freshly created if absent or a non-dict — and then recursively updated with
the value, so sibling keys of the kept (or converted) entry not mentioned
among the value's dot-free keys are preserved; a non-dict value overwrites
the base entry at the key.  (For a dotted key with a dict-like value,
update does not merge along the split path; on the counterexample input it
raises `KeyError`.) -/
theorem c6_amended (fuel : Nat) (assoc a b c inner a' : NAssoc) (key : String) (n : Int)
    (hk : DotFree key) (hc : ∀ p ∈ c, DotFree p.1) :
    (assocGet assoc key = some (.ndict a) → ndUpdateF fuel a c = .ok a' →
      ndUpdateF (fuel + 1) assoc [(key, .pdict c)] = .ok (assocSet assoc key (.ndict a'))
      ∧ ndUpdateF (fuel + 1) assoc [(key, .ndict c)] = .ok (assocSet assoc key (.ndict a'))
      ∧ (∀ s, (∀ p ∈ c, p.1 ≠ s) → assocGet a' s = assocGet a s))
    ∧ (assocGet assoc key = some (.pdict b) → ndUpdateF fuel [] b = .ok inner →
        ndUpdateF fuel inner c = .ok a' →
        ndUpdateF (fuel + 1) assoc [(key, .pdict c)] = .ok (assocSet assoc key (.ndict a'))
        ∧ (∀ s, (∀ p ∈ c, p.1 ≠ s) → assocGet a' s = assocGet inner s))
    ∧ (assocGet assoc key = none → ndUpdateF fuel [] c = .ok a' →
        ndUpdateF (fuel + 1) assoc [(key, .pdict c)] = .ok (assocSet assoc key (.ndict a')))
    ∧ (∀ m0 : Int, assocGet assoc key = some (.leaf m0) → ndUpdateF fuel [] c = .ok a' →
        ndUpdateF (fuel + 1) assoc [(key, .pdict c)] = .ok (assocSet assoc key (.ndict a')))
    ∧ ndUpdateF (fuel + 2) assoc [(key, .leaf n)] = .ok (assocSet assoc key (.leaf n)) := by
  refine ⟨?_, ?_, ?_, ?_, ?_⟩
  · intro ha hrec
    obtain ⟨m, rfl⟩ : ∃ m, fuel = m + 1 := by
      cases fuel with
      | zero => simp [ndUpdateF] at hrec
      | succ m => exact ⟨m, rfl⟩
    have hviv : vivAt assoc key = (.ndict a, assoc) := vivAt_of_get _ _ _ ha
    have hentry : updEntry (ndUpdateF (m + 1)) assoc key c =
        .ok (assocSet assoc key (.ndict a')) := by
      simp only [updEntry, ndGet_dotfree assoc key hk, hviv, updFinish, ha, hrec]
    refine ⟨?_, ?_, ?_⟩
    · simp only [ndUpdateF, hentry]
    · simp only [ndUpdateF, hentry]
    · intro s hns
      exact updFrame _ c a a' s hc hns hrec
  · intro hb hinner hrec2
    obtain ⟨m, rfl⟩ : ∃ m, fuel = m + 1 := by
      cases fuel with
      | zero => simp [ndUpdateF] at hrec2
      | succ m => exact ⟨m, rfl⟩
    have hviv : vivAt assoc key = (.pdict b, assoc) := vivAt_of_get _ _ _ hb
    have hentry : updEntry (ndUpdateF (m + 1)) assoc key c =
        .ok (assocSet assoc key (.ndict a')) := by
      simp only [updEntry, ndGet_dotfree assoc key hk, hviv, mkND, hinner,
        ndSet_dotfree assoc key _ hk, updFinish, assocGet_assocSet_self, hrec2,
        assocSet_assocSet]
    refine ⟨?_, ?_⟩
    · simp only [ndUpdateF, hentry]
    · intro s hns
      exact updFrame _ c inner a' s hc hns hrec2
  · intro habs hrec
    obtain ⟨m, rfl⟩ : ∃ m, fuel = m + 1 := by
      cases fuel with
      | zero => simp [ndUpdateF] at hrec
      | succ m => exact ⟨m, rfl⟩
    have hviv : vivAt assoc key = (.ndict [], assocSet assoc key (.ndict [])) :=
      vivAt_of_none _ _ habs
    have hentry : updEntry (ndUpdateF (m + 1)) assoc key c =
        .ok (assocSet assoc key (.ndict a')) := by
      simp only [updEntry, ndGet_dotfree assoc key hk, hviv, updFinish,
        assocGet_assocSet_self, hrec, assocSet_assocSet]
    simp only [ndUpdateF, hentry]
  · intro m0 hleaf hrec
    obtain ⟨m, rfl⟩ : ∃ m, fuel = m + 1 := by
      cases fuel with
      | zero => simp [ndUpdateF] at hrec
      | succ m => exact ⟨m, rfl⟩
    have hviv : vivAt assoc key = (.leaf m0, assoc) := vivAt_of_get _ _ _ hleaf
    have hentry : updEntry (ndUpdateF (m + 1)) assoc key c =
        .ok (assocSet assoc key (.ndict a')) := by
      simp only [updEntry, ndGet_dotfree assoc key hk, hviv,
        ndSet_dotfree assoc key _ hk, updFinish, assocGet_assocSet_self, hrec,
        assocSet_assocSet]
    simp only [ndUpdateF, hentry]
  · simp [ndUpdateF]

/-- Claim C6 witness: the spec's example `NestedDict({"a": {"x": 1}})`
updated with `{"a": {"y": 2}}` (merge keeps the sibling `"x"`) and with
`{"a": 5}` (overwrite), plus a plain-dict entry `{"a": {"x": 1}}` converted
then merged, and an absent entry vivified then merged. -/
theorem c6_witness :
    ndUpdateF 6 [("a", PyVal.ndict [("x", PyVal.leaf 1)])]
        [("a", PyVal.pdict [("y", PyVal.leaf 2)])] =
      .ok (assocSet [("a", PyVal.ndict [("x", PyVal.leaf 1)])] "a"
        (.ndict [("x", PyVal.leaf 1), ("y", PyVal.leaf 2)]))
    ∧ (∀ s, (∀ p ∈ [("y", PyVal.leaf 2)], p.1 ≠ s) →
        assocGet [("x", PyVal.leaf 1), ("y", PyVal.leaf 2)] s =
          assocGet [("x", PyVal.leaf 1)] s)
    ∧ ndUpdateF 6 [("a", PyVal.pdict [("x", PyVal.leaf 1)])]
        [("a", PyVal.pdict [("y", PyVal.leaf 2)])] =
      .ok (assocSet [("a", PyVal.pdict [("x", PyVal.leaf 1)])] "a"
        (.ndict [("x", PyVal.leaf 1), ("y", PyVal.leaf 2)]))
    ∧ ndUpdateF 6 [] [("a", PyVal.pdict [("y", PyVal.leaf 2)])] =
      .ok (assocSet [] "a" (.ndict [("y", PyVal.leaf 2)]))
    ∧ ndUpdateF 7 [("a", PyVal.ndict [("x", PyVal.leaf 1)])] [("a", PyVal.leaf 5)] =
      .ok (assocSet [("a", PyVal.ndict [("x", PyVal.leaf 1)])] "a" (.leaf 5)) := by
  have hA := (c6_amended 5 [("a", PyVal.ndict [("x", PyVal.leaf 1)])] [("x", PyVal.leaf 1)]
      [] [("y", PyVal.leaf 2)] [] [("x", PyVal.leaf 1), ("y", PyVal.leaf 2)] "a" 5
      (by decide) (by decide)).1 rfl rfl
  have hB := (c6_amended 5 [("a", PyVal.pdict [("x", PyVal.leaf 1)])] [] [("x", PyVal.leaf 1)]
      [("y", PyVal.leaf 2)] [("x", PyVal.leaf 1)] [("x", PyVal.leaf 1), ("y", PyVal.leaf 2)]
      "a" 5 (by decide) (by decide)).2.1 rfl rfl rfl
  have hC := (c6_amended 5 [] [] [] [("y", PyVal.leaf 2)] [] [("y", PyVal.leaf 2)] "a" 5
      (by decide) (by decide)).2.2.1 rfl rfl
  have hE := (c6_amended 5 [("a", PyVal.ndict [("x", PyVal.leaf 1)])] [] []
      [("y", PyVal.leaf 2)] [] [] "a" 5 (by decide) (by decide)).2.2.2.2
  exact ⟨hA.1, hA.2.2, hB.1, hC, hE⟩

/-- Claim C7, counterexample: the dotted key `"a.b"` is absent from the
`NestedDict` whose backing is `{"a": 5}`, yet `get` fails with a
`TypeError` (the leaf at the prefix is not subscriptable) instead of
returning a stored empty `NestedDict`. -/
theorem c7_counterexample :
    assocGet [("a", PyVal.leaf 5)] "a.b" = none
    ∧ ndGet [("a", PyVal.leaf 5)] "a.b" = .error .typeError :=
  ⟨rfl, rfl⟩

/-- Claim C7, amended: for a key whose existing path prefixes are all
`NestedDict`s and whose nested lookup misses, `get` succeeds with a fresh
empty `NestedDict` and stores it (a second `get` finds it with no further
change); the head is then present as a `NestedDict`, other base keys are
untouched, and every proper dotted prefix of the key resolves to a
`NestedDict`.  A prefix holding a non-`NestedDict` value makes `get` fail
instead. -/
theorem c7_amended (assoc : NAssoc) (key h : String) (rs : List String)
    (hsegs : segsOf key = h :: rs)
    (hpo : prefixOkS assoc h rs = true)
    (hna : nestedAbsentS assoc h rs = true) :
    ∃ a', ndGet assoc key = .ok (.ndict [], a')
      ∧ ndGet a' key = .ok (.ndict [], a')
      ∧ (∃ w, assocGet a' h = some (.ndict w))
      ∧ (∀ s, s ≠ h → assocGet a' s = assocGet assoc s)
      ∧ (∀ ps q qs, rs = ps ++ q :: qs →
          ∃ w', ndGet a' (joinSegs (h :: ps)) = .ok (.ndict w', a')) := by
  obtain ⟨a', h1, h2, h3, h4, h5⟩ := vivOk rs h assoc hpo hna
  refine ⟨a', ?_, ?_, h3, h4, ?_⟩
  · simp only [ndGet, hsegs]; exact h1
  · simp only [ndGet, hsegs]; exact h2
  · intro ps q qs hps
    obtain ⟨w', hw⟩ := h5 ps q qs hps
    have hdfh : DotFree h := segsOf_mem_dotFree key h (by rw [hsegs]; simp)
    have hdfp : ∀ s ∈ ps, DotFree s := by
      intro s hsm
      apply segsOf_mem_dotFree key
      rw [hsegs, hps]
      exact List.mem_cons_of_mem _ (List.mem_append_left _ hsm)
    have hsegs2 : segsOf (joinSegs (h :: ps)) = h :: ps :=
      segsOf_joinSegs _ (by simp) (by
        intro s hsm
        rcases List.mem_cons.1 hsm with hm | hm
        · exact hm ▸ hdfh
        · exact hdfp s hm)
    refine ⟨w', ?_⟩
    simp only [ndGet, hsegs2]
    exact hw

/-- Claim C7 witness: the backing `{"a": NestedDict({})}` and the dotted
key `"a.b"`, whose prefix exists as a `NestedDict` and whose leaf is
absent. -/
theorem c7_witness :
    ∃ a', ndGet [("a", PyVal.ndict [])] "a.b" = .ok (.ndict [], a')
      ∧ ndGet a' "a.b" = .ok (.ndict [], a')
      ∧ (∃ w, assocGet a' "a" = some (.ndict w))
      ∧ (∀ s, s ≠ "a" → assocGet a' s = assocGet [("a", PyVal.ndict [])] s)
      ∧ (∀ ps q qs, ["b"] = ps ++ q :: qs →
          ∃ w', ndGet a' (joinSegs ("a" :: ps)) = .ok (.ndict w', a')) :=
  c7_amended [("a", PyVal.ndict [])] "a.b" "a" ["b"] rfl rfl rfl

/-- Claim C8: deleting a dotted key whose head segment is absent from the
base mapping fails with `KeyError` — the prefix is resolved with the
non-creating base accessor before recursing. -/
theorem c8_delete_missing_head (assoc : NAssoc) (key h r : String) (rs : List String)
    (hsegs : segsOf key = h :: r :: rs) (habs : assocGet assoc h = none) :
    ndDel assoc key = .error .keyError := by
  simp only [ndDel, hsegs, ndDelS, habs]

/-- Claim C8 witness: deleting `"a.b"` from an empty `NestedDict`. -/
theorem c8_witness : ndDel [] "a.b" = .error .keyError :=
  c8_delete_missing_head [] "a.b" "a" "b" [] rfl rfl

/-- Claim C10, counterexample: when the nested path already holds the same
value, `update` with a dotted key stores the literal flat entry, and the
subsequent `get` — resolving the split path — does return `v`, so `get`
does not always differ from `v`. -/
theorem c10_counterexample :
    ndUpdateF 3 [("a", PyVal.ndict [("b", PyVal.leaf 5)])] [("a.b", PyVal.leaf 5)] =
      .ok [("a", PyVal.ndict [("b", PyVal.leaf 5)]), ("a.b", PyVal.leaf 5)]
    ∧ ndGet [("a", PyVal.ndict [("b", PyVal.leaf 5)]), ("a.b", PyVal.leaf 5)] "a.b" =
      .ok (.leaf 5, [("a", PyVal.ndict [("b", PyVal.leaf 5)]), ("a.b", PyVal.leaf 5)]) :=
  ⟨rfl, rfl⟩

/-- Claim C10, amended: `update` with a dotted key and a non-dict value
stores the value under the literal flat key, without dot-splitting, on
every `NestedDict`; the subsequent `get` ignores that flat entry and
resolves the split path — in particular, when the head segment is absent it
auto-vivifies `NestedDict`s along the split path and returns a fresh empty
`NestedDict`, which differs from the leaf value — but when the nested path
already holds the value, `get` may coincidentally return it. -/
theorem c10_amended (fuel : Nat) (assoc : NAssoc) (key h r : String) (rs : List String)
    (n : Int) (hsegs : segsOf key = h :: r :: rs) (hhead : assocGet assoc h = none) :
    ndUpdateF (fuel + 2) assoc [(key, .leaf n)] = .ok (assocSet assoc key (.leaf n))
    ∧ assocGet (assocSet assoc key (.leaf n)) key = some (.leaf n)
    ∧ ndGet (assocSet assoc key (.leaf n)) key =
        .ok (.ndict [], assocSet (assocSet assoc key (.leaf n)) h
          (.ndict (buildPath (r :: rs) (.ndict []))))
    ∧ PyVal.ndict [] ≠ PyVal.leaf n := by
  have hkey : key.data = h.data ++ '.' :: (joinSegs (r :: rs)).data := by
    conv_lhs => rw [← joinSegs_segsOf key, hsegs]
    exact data_joinSegs_cons h r rs
  have hne : key ≠ h := by
    intro he
    have hdata := congrArg String.data he
    rw [hkey] at hdata
    have hlen := congrArg List.length hdata
    simp [List.length_append] at hlen
  have hhead' : assocGet (assocSet assoc key (.leaf n)) h = none := by
    rw [assocGet_assocSet_ne _ _ _ _ (Ne.symm hne), hhead]
  refine ⟨?_, assocGet_assocSet_self _ _ _, ?_, by simp⟩
  · simp [ndUpdateF]
  · simp only [ndGet, hsegs, ndGetS, vivAt_of_none _ _ hhead', ndGetS_nil_chain,
      assocSet_assocSet]

/-- Claim C10 witness: the key `"a.b"` with value `5` on an empty
`NestedDict`. -/
theorem c10_witness :
    ndUpdateF 3 [] [("a.b", PyVal.leaf 5)] = .ok (assocSet [] "a.b" (.leaf 5))
    ∧ assocGet (assocSet [] "a.b" (PyVal.leaf 5)) "a.b" = some (.leaf 5)
    ∧ ndGet (assocSet [] "a.b" (PyVal.leaf 5)) "a.b" =
        .ok (.ndict [], assocSet (assocSet [] "a.b" (PyVal.leaf 5)) "a"
          (.ndict (buildPath ["b"] (.ndict []))))
    ∧ PyVal.ndict [] ≠ PyVal.leaf 5 :=
  c10_amended 1 [] "a.b" "a" "b" [] 5 rfl rfl
